import Mathlib

/-!
# Monte Carlo estimation of π (`c++/monte_carlo.cpp`)

A shallow embedding of the sampling loop of `main`:

```
std::mt19937_64 rng(42);
std::uniform_real_distribution<double> dist(0.0, 1.0);
int inside = 0;
int n = 10'000'000;
for (int i = 0; i < n; i++) {
    double x = dist(rng);
    double y = dist(rng);
    if (x * x + y * y <= 1.0) inside++;
}
return 0;
```

* `double` is embedded as `F64`, a model of IEEE-754 binary64 with round to nearest, ties to even.
* `int` is embedded as `Int` with an explicit two's complement wrap to 32 bits (`wrap32`).
* The engine state and the call `dist(rng)` belong to the C++ standard library; the loop is
  embedded over an arbitrary state type `σ` and an arbitrary `dist : σ → F64 × σ`
  (the value drawn and the advanced engine state).
* The trial count `n` and the seed are constants of the source; the embedding takes them as
  arguments and `main` instantiates them with `10000000` and `42`.
-/

namespace MonteCarlo

/-! ## The type `double` -/

/-- A value of the C++ type `double` (IEEE-754 binary64).
`finite s m e` stands for `(-1)^s * m * 2^e`; the results of the operations below are
canonical: `m < 2^53`, `-1074 ≤ e ≤ 971`, `2^52 ≤ m` unless `e = -1074`, and zero is
`finite s 0 0`. -/
inductive F64 where
  | finite (sign : Bool) (mant : Nat) (exp : Int)
  | inf (sign : Bool)
  | nan
deriving DecidableEq

namespace F64

/-- Loop of `bitLen`: counts the binary digits of `m`, `fuel` bounding the number of steps. -/
def bitLenAux : Nat → Nat → Nat → Nat
  | 0, _, acc => acc
  | fuel + 1, m, acc => if m = 0 then acc else bitLenAux fuel (m / 2) (acc + 1)

/-- Number of binary digits of `m` (`0` for `m = 0`). -/
def bitLen (m : Nat) : Nat := bitLenAux m m 0

/-- Rounding of the exact value `(-1)^s * m * 2^e` to binary64: round to nearest, ties to even,
gradual underflow below `2^-1022`, overflow to infinity from `2^1024`. -/
def round (s : Bool) (m : Nat) (e : Int) : F64 :=
  if m = 0 then finite s 0 0
  else
    let e' := max (e + (bitLen m : Int) - 53) (-1074)
    if e' ≤ e then
      if e' > 971 then inf s else finite s (m * 2 ^ (e - e').toNat) e'
    else
      let k := (e' - e).toNat
      let q := m / 2 ^ k
      let r := m % 2 ^ k
      let half := 2 ^ (k - 1)
      let q' := if r > half ∨ (r = half ∧ q % 2 = 1) then q + 1 else q
      if q' = 2 ^ 53 then (if e' + 1 > 971 then inf s else finite s (2 ^ 52) (e' + 1))
      else if q' = 0 then finite s 0 0
      else if e' > 971 then inf s else finite s q' e'

/-- The integer `(-1)^s * m`. -/
def signed (s : Bool) (m : Nat) : Int := if s then -(m : Int) else (m : Int)

/-- The product `a * b` of two doubles. -/
def mul : F64 → F64 → F64
  | finite s1 m1 e1, finite s2 m2 e2 => round (xor s1 s2) (m1 * m2) (e1 + e2)
  | finite s1 m1 _, inf s2 => if m1 = 0 then nan else inf (xor s1 s2)
  | inf s1, finite s2 m2 _ => if m2 = 0 then nan else inf (xor s1 s2)
  | inf s1, inf s2 => inf (xor s1 s2)
  | _, _ => nan

/-- The sum `a + b` of two doubles. -/
def add : F64 → F64 → F64
  | finite s1 m1 e1, finite s2 m2 e2 =>
    let e := min e1 e2
    let v := signed s1 (m1 * 2 ^ (e1 - e).toNat) + signed s2 (m2 * 2 ^ (e2 - e).toNat)
    if v = 0 then finite (s1 && s2) 0 0 else round (decide (v < 0)) v.natAbs e
  | finite _ _ _, inf s2 => inf s2
  | inf s1, finite _ _ _ => inf s1
  | inf s1, inf s2 => if s1 = s2 then inf s1 else nan
  | _, _ => nan

/-- The comparison `a <= b` of two doubles (false as soon as one of them is a NaN). -/
def le : F64 → F64 → Bool
  | finite s1 m1 e1, finite s2 m2 e2 =>
    let e := min e1 e2
    decide (signed s1 (m1 * 2 ^ (e1 - e).toNat) ≤ signed s2 (m2 * 2 ^ (e2 - e).toNat))
  | finite _ _ _, inf s2 => !s2
  | inf s1, finite _ _ _ => s1
  | inf s1, inf s2 => s1 || !s2
  | _, _ => false

/-- Rounding of the exact quotient `(-1)^s * (a / b) * 2^e`, `b ≠ 0`: the quotient is computed
to at least 55 binary digits, the remainder is kept as a sticky digit, and the result is
rounded by `round`. -/
def divRound (s : Bool) (a b : Nat) (e : Int) : F64 :=
  if a = 0 then finite s 0 0
  else
    let k := bitLen b + 55 - bitLen a
    let q := (a * 2 ^ k) / b
    let r := (a * 2 ^ k) % b
    round s (2 * q + (if r = 0 then 0 else 1)) (e - (k : Int) - 1)

/-- The quotient `a / b` of two doubles. -/
def div : F64 → F64 → F64
  | finite s1 m1 e1, finite s2 m2 e2 =>
    if m2 = 0 then (if m1 = 0 then nan else inf (xor s1 s2))
    else divRound (xor s1 s2) m1 m2 (e1 - e2)
  | finite s1 _ _, inf s2 => finite (xor s1 s2) 0 0
  | inf s1, finite s2 _ _ => inf (xor s1 s2)
  | _, _ => nan

/-- Conversion of an integer to `double`. -/
def ofInt (n : Int) : F64 := round (decide (n < 0)) n.natAbs 0

/-- The double nearest to the fraction `a / b` (`b ≠ 0`): the value of a decimal literal such
as `0.6 = 6 / 10`. -/
def ofRatio (a b : Nat) : F64 := divRound false a b 0

/-- The literal `0.0`. -/
def zero : F64 := finite false 0 0

/-- The literal `1.0`. -/
def one : F64 := finite false (2 ^ 52) (-52)

/-- The literal `4.0`. -/
def four : F64 := finite false (2 ^ 52) (-50)

end F64

/-! ## The type `int` -/

/-- The largest value of the 32-bit type `int`. -/
def INT_MAX : Int := 2 ^ 31 - 1

/-- Two's complement wrap of an integer to the 32-bit type `int`. -/
def wrap32 (x : Int) : Int := (x + 2 ^ 31) % 2 ^ 32 - 2 ^ 31

/-! ## The loop of `main` -/

/-- The variables that are live in the loop of `main`: the engine `rng`, the hit counter
`inside` and the loop index `i`. -/
structure LoopState (σ : Type) where
  rng : σ
  inside : Int
  i : Int

/-- The condition `x * x + y * y <= 1.0` of the `if` in the loop body. -/
def inCircle (x y : F64) : Bool :=
  F64.le (F64.add (F64.mul x x) (F64.mul y y)) F64.one

/-- One iteration of the loop, the increment `i++` included:
`double x = dist(rng); double y = dist(rng); if (x * x + y * y <= 1.0) inside++;`. -/
def body {σ : Type} (dist : σ → F64 × σ) (st : LoopState σ) : LoopState σ :=
  let x := dist st.rng
  let y := dist x.2
  { rng := y.2
    inside := if inCircle x.1 y.1 then wrap32 (st.inside + 1) else st.inside
    i := wrap32 (st.i + 1) }

/-- The loop `for (...; i < n; i++) { ... }` from the state `st`, running at most `fuel`
iterations: `none` when the fuel runs out before the condition `i < n` fails. -/
def loop {σ : Type} (dist : σ → F64 × σ) (n : Int) : Nat → LoopState σ → Option (LoopState σ)
  | 0, st => if st.i < n then none else some st
  | fuel + 1, st => if st.i < n then loop dist n fuel (body dist st) else some st

/-- The states in which the loop evaluates its condition `i < n`, in order: the state before
the first iteration, the state after each iteration, the last one being the state at exit
when the fuel suffices. -/
def loopTrace {σ : Type} (dist : σ → F64 × σ) (n : Int) :
    Nat → LoopState σ → List (LoopState σ)
  | 0, st => [st]
  | fuel + 1, st => st :: (if st.i < n then loopTrace dist n fuel (body dist st) else [])

/-- The state at loop entry: `rng` freshly seeded, `int inside = 0`, `int i = 0`. -/
def initState {σ : Type} (rng : σ) : LoopState σ := { rng := rng, inside := 0, i := 0 }

/-- What a run of `main` leaves behind: the exit status it returns, and the final values of
its local variables, which the program itself never outputs. -/
structure Run (σ : Type) where
  status : Int
  final : LoopState σ

/-- The function `main` with the trial count `n` and the seeded engine `rng` as arguments:
it runs the loop and executes `return 0;`. -/
def mainWith {σ : Type} (dist : σ → F64 × σ) (rng : σ) (n : Int) (fuel : Nat) :
    Option (Run σ) :=
  match loop dist n fuel (initState rng) with
  | some st => some { status := 0, final := st }
  | none => none

/-- The function `main` of the source: `seed 42` is the engine built by
`std::mt19937_64 rng(42)` and the trial count is `10'000'000`. -/
def main {σ : Type} (seed : Nat → σ) (dist : σ → F64 × σ) (fuel : Nat) : Option (Run σ) :=
  mainWith dist (seed 42) 10000000 fuel

/-! ## The sample stream -/

/-- The engine state after `k` iterations of the loop, that is after `2 * k` calls of `dist`. -/
def rngAt {σ : Type} (dist : σ → F64 × σ) (rng : σ) : Nat → σ
  | 0 => rng
  | k + 1 => (dist (dist (rngAt dist rng k)).2).2

/-- The point `(x, y)` sampled by iteration `k` (counted from `0`). -/
def pointAt {σ : Type} (dist : σ → F64 × σ) (rng : σ) (k : Nat) : F64 × F64 :=
  let x := dist (rngAt dist rng k)
  (x.1, (dist x.2).1)

/-- The number of points among the first `N` sampled points with `x * x + y * y <= 1.0`. -/
def hitsUpTo {σ : Type} (dist : σ → F64 × σ) (rng : σ) (N : Nat) : Nat :=
  ((List.range N).filter
    (fun k => inCircle (pointAt dist rng k).1 (pointAt dist rng k).2)).length

/-! ## A replayed sample stream -/

/-- A source of coordinates that replays a recorded list: each call hands out the head of the
list (`0.0` once the list is exhausted). -/
def replay : List F64 → F64 × List F64
  | [] => (F64.zero, [])
  | x :: xs => (x, xs)

/-- The coordinates of a list of points in the order in which the loop draws them. -/
def coords : List (F64 × F64) → List F64
  | [] => []
  | p :: ps => p.1 :: p.2 :: coords ps

/-- The final value of `inside` when the loop is run over the recorded points `pts`, one
iteration per point. -/
def hits (pts : List (F64 × F64)) : Int :=
  match loop replay pts.length pts.length (initState (coords pts)) with
  | some st => st.inside
  | none => 0

/-- Modelled from the spec: the estimate `4.0 * hits / total`, which the source never
computes (`main` discards `inside` and returns `0`); `hits` and `total` are converted to
`double` and the expression is evaluated left to right. -/
def estimate (hits total : Int) : F64 :=
  F64.div (F64.mul F64.four (F64.ofInt hits)) (F64.ofInt total)

/-! ## Recorded sample streams -/

/-- The literal `0.6`. -/
def c06 : F64 := F64.ofRatio 6 10

/-- The literal `0.8`. -/
def c08 : F64 := F64.ofRatio 8 10

/-- Three recorded points: the origin, the corner `(1, 1)` and the boundary point
`(0.6, 0.8)`. -/
def samplePts : List (F64 × F64) := [(F64.zero, F64.zero), (F64.one, F64.one), (c06, c08)]

/-- A recorded stream whose first point `(0, 0)` is a hit. -/
def hitStream : List F64 := [F64.zero, F64.zero]

/-- A recorded stream whose first point `(1, 1)` is a miss. -/
def missStream : List F64 := [F64.one, F64.one]

/-- The literal `0.9`. -/
def c09 : F64 := F64.ofRatio 9 10

/-- A distribution over a stateless engine that hands out the same coordinate `v` at every
call, so that every sampled point is `(v, v)`. -/
def constDist (v : F64) : Unit → F64 × Unit := fun _ => (v, ())

/-- The state of the loop after `k` iterations, described by the sample stream: the engine has
been advanced `k` times by two draws, `inside` counts the hits among the first `k` points and
`i = k`. -/
def stateAt {σ : Type} (dist : σ → F64 × σ) (rng : σ) (k : Nat) : LoopState σ :=
  { rng := rngAt dist rng k, inside := (hitsUpTo dist rng k : Int), i := (k : Int) }

/-- The invariant `0 ≤ hits ≤ total ≤ N` of the counters, with `hits = inside` and
`total = i`. -/
def CounterInv {σ : Type} (N : Int) (st : LoopState σ) : Prop :=
  0 ≤ st.inside ∧ st.inside ≤ st.i ∧ st.i ≤ N

/-! ## Scaling a raw draw -/

/-- Modelled from the spec: the Uniform Sampler's scaling of one raw 64-bit draw, "division by
the generator's output range", carried out on doubles. The source calls the standard library
(`dist(rng)`) for it and contains no such division. -/
def scaleByRange (raw : Nat) : F64 :=
  F64.div (F64.ofInt (raw : Int)) (F64.ofInt (2 ^ 64))

/-- Modelled from the spec: the same scaling carried out exactly, on rationals. -/
def scaleExact (raw : Nat) : ℚ := (raw : ℚ) / 2 ^ 64

/-! ## The Random Source behind `dist` -/

/-- Modelled from the spec: the Uniform Sampler obtains each coordinate "by mapping one raw draw
from the Random Source": a call `dist(rng)` takes one raw value from the engine (`next`, the
call `rng()`) and scales it (`scale`). The library code of `std::uniform_real_distribution`
and `std::mt19937_64` is not part of the source; `next` and `scale` are arbitrary. -/
def distOf {σ : Type} (next : σ → Nat × σ) (scale : Nat → F64) : σ → F64 × σ :=
  fun rng => (scale (next rng).1, (next rng).2)

/-- The engine state after `j` raw draws. -/
def engineAt {σ : Type} (next : σ → Nat × σ) (rng : σ) : Nat → σ
  | 0 => rng
  | j + 1 => (next (engineAt next rng j)).2

/-- The raw value handed out by draw number `j` (counted from `0`). -/
def rawAt {σ : Type} (next : σ → Nat × σ) (rng : σ) (j : Nat) : Nat :=
  (next (engineAt next rng j)).1

/-- An engine for experiments: its state is a counter, which it hands out and increments. -/
def counterEngine : Nat → Nat × Nat := fun s => (s, s + 1)

/-! ## The loop over unbounded integers -/

/-- One iteration of the loop with the counters read as unbounded integers: the increments
`inside++` and `i++` add `1` without wrapping. To be compared with `body`. -/
def bodyZ {σ : Type} (dist : σ → F64 × σ) (st : LoopState σ) : LoopState σ :=
  let x := dist st.rng
  let y := dist x.2
  { rng := y.2
    inside := if inCircle x.1 y.1 then st.inside + 1 else st.inside
    i := st.i + 1 }

/-- The loop with the counters read as unbounded integers. To be compared with `loop`. -/
def loopZ {σ : Type} (dist : σ → F64 × σ) (n : Int) : Nat → LoopState σ → Option (LoopState σ)
  | 0, st => if st.i < n then none else some st
  | fuel + 1, st => if st.i < n then loopZ dist n fuel (bodyZ dist st) else some st

/-! ## Machine integers -/

theorem wrap32_eq_self (x : Int) (h0 : -2 ^ 31 ≤ x) (h1 : x ≤ INT_MAX) : wrap32 x = x := by
  unfold wrap32
  unfold INT_MAX at h1
  omega

theorem wrap32_succ (x : Int) (b : Int) (h0 : 0 ≤ x) (hx : x < b) (hb : b ≤ INT_MAX) :
    wrap32 (x + 1) = x + 1 := by
  apply wrap32_eq_self
  · omega
  · omega

/-! ## The counters follow the sample stream -/

theorem hitsUpTo_succ {σ : Type} (dist : σ → F64 × σ) (rng : σ) (k : Nat) :
    hitsUpTo dist rng (k + 1) =
      hitsUpTo dist rng k +
        (if inCircle (pointAt dist rng k).1 (pointAt dist rng k).2 then 1 else 0) := by
  unfold hitsUpTo
  rw [List.range_succ, List.filter_append, List.length_append]
  by_cases h : inCircle (pointAt dist rng k).1 (pointAt dist rng k).2 = true
  · simp [List.filter_cons, h]
  · simp [List.filter_cons, h]

theorem hitsUpTo_le {σ : Type} (dist : σ → F64 × σ) (rng : σ) (k : Nat) :
    hitsUpTo dist rng k ≤ k := by
  unfold hitsUpTo
  calc ((List.range k).filter _).length ≤ (List.range k).length := List.length_filter_le _ _
    _ = k := List.length_range k

theorem body_stateAt {σ : Type} (dist : σ → F64 × σ) (rng : σ) (k : Nat) (N : Int)
    (hk : (k : Int) < N) (hN : N ≤ INT_MAX) :
    body dist (stateAt dist rng k) = stateAt dist rng (k + 1) := by
  have hle : (hitsUpTo dist rng k : Int) ≤ (k : Int) := by
    exact_mod_cast hitsUpTo_le dist rng k
  have hi : wrap32 ((k : Int) + 1) = (k : Int) + 1 :=
    wrap32_succ _ N (by omega) hk hN
  have hh : wrap32 ((hitsUpTo dist rng k : Int) + 1) = (hitsUpTo dist rng k : Int) + 1 :=
    wrap32_succ _ N (by omega) (by omega) hN
  unfold body stateAt
  simp only [hi, hh, hitsUpTo_succ, rngAt, pointAt]
  by_cases h : inCircle (dist (rngAt dist rng k)).1 (dist (dist (rngAt dist rng k)).2).1 = true
  · simp [h]
  · simp [h]

theorem loop_stateAt {σ : Type} (dist : σ → F64 × σ) (rng : σ) (N : Nat)
    (hN : (N : Int) ≤ INT_MAX) :
    ∀ (fuel k : Nat), k ≤ N → N - k ≤ fuel →
      loop dist N fuel (stateAt dist rng k) = some (stateAt dist rng N) := by
  intro fuel
  induction fuel with
  | zero =>
    intro k hk hf
    have hkN : k = N := by omega
    subst hkN
    simp [loop, stateAt]
  | succ fuel ih =>
    intro k hk hf
    by_cases hlt : k < N
    · have hlt' : ((k : Nat) : Int) < (N : Int) := by exact_mod_cast hlt
      have hcond : (stateAt dist rng k).i < (N : Int) := hlt'
      rw [loop, if_pos hcond, body_stateAt dist rng k N hlt' hN]
      exact ih (k + 1) (by omega) (by omega)
    · have hkN : k = N := by omega
      subst hkN
      simp [loop, stateAt]

theorem initState_eq_stateAt {σ : Type} (dist : σ → F64 × σ) (rng : σ) :
    initState rng = stateAt dist rng 0 := by
  simp [initState, stateAt, rngAt, hitsUpTo]

theorem loop_initState {σ : Type} (dist : σ → F64 × σ) (rng : σ) (N fuel : Nat)
    (hN : (N : Int) ≤ INT_MAX) (hf : N ≤ fuel) :
    loop dist N fuel (initState rng) = some (stateAt dist rng N) := by
  rw [initState_eq_stateAt dist rng]
  exact loop_stateAt dist rng N hN fuel 0 (Nat.zero_le N) (by omega)

/-! ## The invariant of the counters -/

theorem body_inv {σ : Type} (dist : σ → F64 × σ) (N : Int) (hN : N ≤ INT_MAX)
    (st : LoopState σ) (hinv : CounterInv N st) (hlt : st.i < N) :
    CounterInv N (body dist st) := by
  obtain ⟨h0, h1, _⟩ := hinv
  have hi : wrap32 (st.i + 1) = st.i + 1 := wrap32_succ _ N (by omega) hlt hN
  have hh : wrap32 (st.inside + 1) = st.inside + 1 := wrap32_succ _ N h0 (by omega) hN
  unfold CounterInv body
  simp only [hi, hh]
  by_cases h : inCircle (dist st.rng).1 (dist (dist st.rng).2).1 = true
  · simp only [h, if_true]
    omega
  · simp only [h]
    simp only [Bool.false_eq_true, if_false]
    omega

theorem loopTrace_inv {σ : Type} (dist : σ → F64 × σ) (N : Int) (hN : N ≤ INT_MAX) :
    ∀ (fuel : Nat) (st : LoopState σ), CounterInv N st →
      ∀ s ∈ loopTrace dist N fuel st, CounterInv N s := by
  intro fuel
  induction fuel with
  | zero =>
    intro st hinv s hs
    simp only [loopTrace, List.mem_singleton] at hs
    subst hs
    exact hinv
  | succ fuel ih =>
    intro st hinv s hs
    rw [loopTrace, List.mem_cons] at hs
    rcases hs with hs | hs
    · subst hs
      exact hinv
    · by_cases hlt : st.i < N
      · rw [if_pos hlt] at hs
        exact ih (body dist st) (body_inv dist N hN st hinv hlt) s hs
      · rw [if_neg hlt] at hs
        cases hs

theorem loopTrace_getLast {σ : Type} (dist : σ → F64 × σ) (n : Int) :
    ∀ (fuel : Nat) (st s : LoopState σ), loop dist n fuel st = some s →
      (loopTrace dist n fuel st).getLast? = some s := by
  intro fuel
  induction fuel with
  | zero =>
    intro st s h
    by_cases hlt : st.i < n
    · simp [loop, hlt] at h
    · simp only [loop, if_neg hlt, Option.some.injEq] at h
      simp [loopTrace, h]
  | succ fuel ih =>
    intro st s h
    by_cases hlt : st.i < n
    · rw [loop, if_pos hlt] at h
      rw [loopTrace, if_pos hlt, List.getLast?_cons, ih _ _ h]
      rfl
    · simp only [loop, if_neg hlt, Option.some.injEq] at h
      subst h
      simp [loopTrace, hlt]

theorem loopTrace_length {σ : Type} (dist : σ → F64 × σ) (rng : σ) (N : Nat)
    (hN : (N : Int) ≤ INT_MAX) :
    ∀ (fuel k : Nat), k ≤ N → N - k ≤ fuel →
      (loopTrace dist N fuel (stateAt dist rng k)).length = N - k + 1 := by
  intro fuel
  induction fuel with
  | zero =>
    intro k hk hf
    have hkN : k = N := by omega
    subst hkN
    simp [loopTrace]
  | succ fuel ih =>
    intro k hk hf
    by_cases hlt : k < N
    · have hlt' : ((k : Nat) : Int) < (N : Int) := by exact_mod_cast hlt
      have hcond : (stateAt dist rng k).i < (N : Int) := hlt'
      rw [loopTrace, if_pos hcond, body_stateAt dist rng k N hlt' hN, List.length_cons,
        ih (k + 1) (by omega) (by omega)]
      omega
    · have hkN : k = N := by omega
      subst hkN
      simp [loopTrace, stateAt]

/-! ## The loop over a recorded stream -/

theorem rngAt_shift {σ : Type} (dist : σ → F64 × σ) (rng : σ) (k : Nat) :
    rngAt dist rng (k + 1) = rngAt dist (rngAt dist rng 1) k := by
  induction k with
  | zero => rfl
  | succ k ih =>
    calc rngAt dist rng (k + 1 + 1)
        = (dist (dist (rngAt dist rng (k + 1))).2).2 := rfl
      _ = (dist (dist (rngAt dist (rngAt dist rng 1) k)).2).2 := by rw [ih]
      _ = rngAt dist (rngAt dist rng 1) (k + 1) := rfl

theorem pointAt_shift {σ : Type} (dist : σ → F64 × σ) (rng : σ) (k : Nat) :
    pointAt dist rng (k + 1) = pointAt dist (rngAt dist rng 1) k := by
  unfold pointAt
  rw [rngAt_shift]

theorem hitsUpTo_shift {σ : Type} (dist : σ → F64 × σ) (rng : σ) (k : Nat) :
    hitsUpTo dist rng (k + 1) =
      (if inCircle (pointAt dist rng 0).1 (pointAt dist rng 0).2 then 1 else 0) +
        hitsUpTo dist (rngAt dist rng 1) k := by
  induction k with
  | zero =>
    rw [hitsUpTo_succ dist rng 0]
    simp [hitsUpTo]
  | succ k ih =>
    rw [hitsUpTo_succ dist rng (k + 1), ih, hitsUpTo_succ dist (rngAt dist rng 1) k,
      pointAt_shift, Nat.add_assoc]

theorem hitsUpTo_replay (pts : List (F64 × F64)) :
    hitsUpTo replay (coords pts) pts.length = pts.countP (fun p => inCircle p.1 p.2) := by
  induction pts with
  | nil => simp [hitsUpTo]
  | cons p ps ih =>
    have h1 : rngAt replay (coords (p :: ps)) 1 = coords ps := rfl
    have h0 : pointAt replay (coords (p :: ps)) 0 = (p.1, p.2) := rfl
    rw [List.length_cons, hitsUpTo_shift, h1, h0, ih, List.countP_cons]
    by_cases h : inCircle p.1 p.2 = true
    · simp [h, Nat.add_comm]
    · simp [h]

theorem hits_eq_countP (pts : List (F64 × F64)) (h : (pts.length : Int) ≤ INT_MAX) :
    hits pts = ((pts.countP (fun p => inCircle p.1 p.2) : Nat) : Int) := by
  unfold hits
  rw [loop_initState replay (coords pts) pts.length pts.length h (Nat.le_refl _)]
  simp only [stateAt]
  rw [hitsUpTo_replay]

/-! ## Evaluation on the recorded points -/

theorem inCircle_origin : inCircle F64.zero F64.zero = true := by decide

set_option maxRecDepth 8192 in
theorem inCircle_corner : inCircle F64.one F64.one = false := by decide

set_option maxRecDepth 8192 in
theorem inCircle_boundary : inCircle c06 c08 = true := by decide

set_option maxRecDepth 8192 in
theorem boundary_sum : F64.add (F64.mul c06 c06) (F64.mul c08 c08) = F64.one := by decide

set_option maxRecDepth 8192 in
theorem estimate_zero_one : estimate 0 1 = F64.zero := by decide

set_option maxRecDepth 8192 in
theorem estimate_one_one : estimate 1 1 = F64.four := by decide

theorem int_max_pos : (1 : Int) ≤ INT_MAX := by
  unfold INT_MAX
  norm_num

theorem three_le_int_max : ((3 : Nat) : Int) ≤ INT_MAX := by
  unfold INT_MAX
  norm_num

theorem ten_million_le_int_max : ((10000000 : Nat) : Int) ≤ INT_MAX := by
  unfold INT_MAX
  norm_num

theorem mainWith_eq {σ : Type} (dist : σ → F64 × σ) (rng : σ) (N fuel : Nat)
    (hN : (N : Int) ≤ INT_MAX) (hf : N ≤ fuel) :
    mainWith dist rng N fuel = some { status := 0, final := stateAt dist rng N } := by
  unfold mainWith
  rw [loop_initState dist rng N fuel hN hf]

/-! ## The two readings of the scaling

Carried out exactly, the division by the output range maps every raw 64-bit value into
`[0, 1)`; carried out on doubles, it rounds the largest raw value to `1.0`. Which values
`dist(rng)` returns is therefore decided by the rounding inside the library, which is not part
of the source. -/

theorem scaleExact_range (raw : Nat) (h : raw < 2 ^ 64) :
    0 ≤ scaleExact raw ∧ scaleExact raw < 1 := by
  unfold scaleExact
  have hr : (raw : ℚ) < 2 ^ 64 := by exact_mod_cast h
  have hpos : (0 : ℚ) < 2 ^ 64 := by positivity
  constructor
  · positivity
  · rw [div_lt_one hpos]
    exact hr

set_option maxRecDepth 8192 in
theorem scaleByRange_top : scaleByRange (2 ^ 64 - 1) = F64.one := by decide

/-! ## Streams of identical points -/

theorem hitsUpTo_all {σ : Type} (dist : σ → F64 × σ) (rng : σ)
    (h : ∀ k, inCircle (pointAt dist rng k).1 (pointAt dist rng k).2 = true) (N : Nat) :
    hitsUpTo dist rng N = N := by
  induction N with
  | zero => simp [hitsUpTo]
  | succ N ih => rw [hitsUpTo_succ, ih, if_pos (h N)]

theorem hitsUpTo_none {σ : Type} (dist : σ → F64 × σ) (rng : σ)
    (h : ∀ k, inCircle (pointAt dist rng k).1 (pointAt dist rng k).2 = false) (N : Nat) :
    hitsUpTo dist rng N = 0 := by
  induction N with
  | zero => simp [hitsUpTo]
  | succ N ih =>
    rw [hitsUpTo_succ, ih, h N]
    simp

theorem pointAt_constDist (v : F64) (k : Nat) : pointAt (constDist v) () k = (v, v) := rfl

set_option maxRecDepth 8192 in
theorem inCircle_c09 : inCircle c09 c09 = false := by decide

set_option maxRecDepth 8192 in
theorem estimate_all_hits :
    estimate ((10000000 : Nat) : Int) ((10000000 : Nat) : Int) = F64.four := by decide

set_option maxRecDepth 8192 in
theorem estimate_no_hits : estimate ((0 : Nat) : Int) ((10000000 : Nat) : Int) = F64.zero := by
  decide

theorem main_constDist_hits (fuel : Nat) (hf : 10000000 ≤ fuel) :
    main (fun _ => ()) (constDist F64.zero) fuel =
      some { status := 0
             final := { rng := (), inside := ((10000000 : Nat) : Int),
                        i := ((10000000 : Nat) : Int) } } := by
  have h : main (fun _ => ()) (constDist F64.zero) fuel =
      some { status := 0, final := stateAt (constDist F64.zero) () 10000000 } :=
    mainWith_eq (constDist F64.zero) () 10000000 fuel ten_million_le_int_max hf
  rw [h]
  have hh : hitsUpTo (constDist F64.zero) () 10000000 = 10000000 :=
    hitsUpTo_all (constDist F64.zero) ()
      (fun k => by rw [pointAt_constDist]; exact inCircle_origin) 10000000
  simp only [stateAt, hh]

theorem main_constDist_misses (fuel : Nat) (hf : 10000000 ≤ fuel) :
    main (fun _ => ()) (constDist c09) fuel =
      some { status := 0
             final := { rng := (), inside := ((0 : Nat) : Int),
                        i := ((10000000 : Nat) : Int) } } := by
  have h : main (fun _ => ()) (constDist c09) fuel =
      some { status := 0, final := stateAt (constDist c09) () 10000000 } :=
    mainWith_eq (constDist c09) () 10000000 fuel ten_million_le_int_max hf
  rw [h]
  have hh : hitsUpTo (constDist c09) () 10000000 = 0 :=
    hitsUpTo_none (constDist c09) ()
      (fun k => by rw [pointAt_constDist]; exact inCircle_c09) 10000000
  simp only [stateAt, hh]

/-! ## The loop with no iteration -/

/-- With the trial count turned into an argument and set to `0`, the loop runs no iteration,
whatever the engine, the distribution and the fuel: the engine is not advanced, the counters
stay at `inside = 0` and `i = 0`, and the status returned is `0`. The source fixes
`n = 10'000'000`, so no run of the program itself has trial count `0`. -/
theorem zero_trials_run {σ : Type} (dist : σ → F64 × σ) (rng : σ) (fuel : Nat) :
    mainWith dist rng 0 fuel = some { status := 0, final := initState rng } ∧
      loopTrace dist 0 fuel (initState rng) = [initState rng] := by
  cases fuel <;> simp [mainWith, loop, loopTrace, initState]

/-! ## The claims -/

/-- C1: for every trial count `N` (a non-negative value of type `int`) and every sample stream,
the loop of `main` terminates within `N` iterations, and on exit `inside` is the number of
points among the first `N` sampled points with `x * x + y * y <= 1.0` and `i` equals `N`. -/
theorem loop_counts_hits {σ : Type} (dist : σ → F64 × σ) (rng : σ) (N fuel : Nat)
    (hN : (N : Int) ≤ INT_MAX) (hfuel : N ≤ fuel) :
    ∃ r, mainWith dist rng N fuel = some r ∧
      r.final.inside = (hitsUpTo dist rng N : Int) ∧ r.final.i = (N : Int) :=
  ⟨_, mainWith_eq dist rng N fuel hN hfuel, rfl, rfl⟩

theorem loop_counts_hits_witness :
    ((3 : Nat) : Int) ≤ INT_MAX ∧ 3 ≤ 3 ∧
      ∃ r, mainWith replay (coords samplePts) ((3 : Nat) : Int) 3 = some r ∧
        r.final.inside = (hitsUpTo replay (coords samplePts) 3 : Int) ∧
        r.final.i = ((3 : Nat) : Int) :=
  ⟨three_le_int_max, Nat.le_refl 3,
    loop_counts_hits replay (coords samplePts) 3 3 three_le_int_max (Nat.le_refl 3)⟩

/-- C2: for every trial count `N` of type `int` and every sample stream, every state in which
the loop evaluates its condition (before the first iteration, after each iteration, at exit)
satisfies `0 ≤ inside ≤ i ≤ N`; with enough fuel these are `N + 1` states and the last of them
is the state at exit. -/
theorem counters_invariant {σ : Type} (dist : σ → F64 × σ) (rng : σ) (N fuel : Nat)
    (hN : (N : Int) ≤ INT_MAX) :
    (∀ st ∈ loopTrace dist N fuel (initState rng),
        0 ≤ st.inside ∧ st.inside ≤ st.i ∧ st.i ≤ (N : Int)) ∧
      (N ≤ fuel →
        (loopTrace dist N fuel (initState rng)).length = N + 1 ∧
        (loopTrace dist N fuel (initState rng)).getLast? =
          loop dist N fuel (initState rng)) := by
  refine ⟨?_, ?_⟩
  · intro st hst
    have hinit : CounterInv (N : Int) (initState rng) := by
      unfold CounterInv initState
      simp
    exact loopTrace_inv dist N hN fuel (initState rng) hinit st hst
  · intro hf
    refine ⟨?_, ?_⟩
    · rw [initState_eq_stateAt dist rng,
        loopTrace_length dist rng N hN fuel 0 (Nat.zero_le N) (by omega)]
      omega
    · rw [loop_initState dist rng N fuel hN hf]
      exact loopTrace_getLast dist N fuel _ _ (loop_initState dist rng N fuel hN hf)

theorem counters_invariant_witness :
    ((3 : Nat) : Int) ≤ INT_MAX ∧
      (∀ st ∈ loopTrace replay ((3 : Nat) : Int) 3 (initState (coords samplePts)),
        0 ≤ st.inside ∧ st.inside ≤ st.i ∧ st.i ≤ ((3 : Nat) : Int)) ∧
      (3 ≤ 3 →
        (loopTrace replay ((3 : Nat) : Int) 3 (initState (coords samplePts))).length = 3 + 1 ∧
        (loopTrace replay ((3 : Nat) : Int) 3 (initState (coords samplePts))).getLast? =
          loop replay ((3 : Nat) : Int) 3 (initState (coords samplePts))) :=
  ⟨three_le_int_max, counters_invariant replay (coords samplePts) 3 3 three_le_int_max⟩

/-- C4, as stated, fails on the code: two runs of `main` itself (`n = 10'000'000`), one over
a stream of points `(0, 0)` ending with the estimate `4.0` and one over a stream of points
`(0.9, 0.9)` ending with the estimate `0.0`, return the same exit status `0`, which is all
that `main` returns or reports; likewise two runs with one trial each. -/
theorem estimate_not_observable :
    (∃ r₁ r₂, mainWith replay hitStream 1 1 = some r₁ ∧
      mainWith replay missStream 1 1 = some r₂ ∧
      r₁.status = 0 ∧ r₂.status = 0 ∧
      estimate r₁.final.inside r₁.final.i = F64.four ∧
      estimate r₂.final.inside r₂.final.i = F64.zero ∧
      estimate r₁.final.inside r₁.final.i ≠ estimate r₂.final.inside r₂.final.i) ∧
    (∃ r₁ r₂, main (fun _ => ()) (constDist F64.zero) 10000000 = some r₁ ∧
      main (fun _ => ()) (constDist c09) 10000000 = some r₂ ∧
      r₁.status = 0 ∧ r₂.status = 0 ∧
      estimate r₁.final.inside r₁.final.i = F64.four ∧
      estimate r₂.final.inside r₂.final.i = F64.zero ∧
      estimate r₁.final.inside r₁.final.i ≠ estimate r₂.final.inside r₂.final.i) := by
  have h1 : mainWith replay hitStream 1 1 =
      some { status := 0, final := { rng := [], inside := 1, i := 1 } } := by
    simp [mainWith, loop, body, initState, hitStream, replay, inCircle_origin, wrap32]
  have h2 : mainWith replay missStream 1 1 =
      some { status := 0, final := { rng := [], inside := 0, i := 1 } } := by
    simp [mainWith, loop, body, initState, missStream, replay, inCircle_corner, wrap32]
  have hne : F64.four ≠ F64.zero := by decide
  refine ⟨⟨_, _, h1, h2, rfl, rfl, estimate_one_one, estimate_zero_one, ?_⟩,
    ⟨_, _, main_constDist_hits 10000000 (Nat.le_refl _),
      main_constDist_misses 10000000 (Nat.le_refl _), rfl, rfl,
      estimate_all_hits, estimate_no_hits, ?_⟩⟩
  · simp only [estimate_one_one, estimate_zero_one]
    exact hne
  · simp only [estimate_all_hits, estimate_no_hits]
    exact hne

/-- C4, amended: for every trial count `N > 0` of type `int`, `main` completes and returns
exit status `0`; the final counters are `inside = ` the number of hits among the first `N`
points and `i = N`, and the estimate `4.0 * hits / total` is the function `estimate` of these
two counters, which the program neither computes nor reports. -/
theorem completes_without_estimate {σ : Type} (dist : σ → F64 × σ) (rng : σ) (N fuel : Nat)
    (_hpos : 0 < N) (hN : (N : Int) ≤ INT_MAX) (hfuel : N ≤ fuel) :
    ∃ r, mainWith dist rng N fuel = some r ∧ r.status = 0 ∧
      estimate r.final.inside r.final.i = estimate (hitsUpTo dist rng N : Int) (N : Int) :=
  ⟨_, mainWith_eq dist rng N fuel hN hfuel, rfl, rfl⟩

theorem completes_without_estimate_witness :
    0 < 3 ∧ ((3 : Nat) : Int) ≤ INT_MAX ∧ 3 ≤ 3 ∧
      ∃ r, mainWith replay (coords samplePts) ((3 : Nat) : Int) 3 = some r ∧ r.status = 0 ∧
        estimate r.final.inside r.final.i =
          estimate (hitsUpTo replay (coords samplePts) 3 : Int) ((3 : Nat) : Int) :=
  ⟨by decide, three_le_int_max, Nat.le_refl 3,
    completes_without_estimate replay (coords samplePts) 3 3 (by decide) three_le_int_max
      (Nat.le_refl 3)⟩

/-- C5: for every trial count `N > 0` of type `int` and every seed, two runs with the same
`(N, S)` both complete and end with the same `inside` (hits), the same `i` (total) and the
same estimate, however much fuel each run is given beyond the `N` iterations it needs; in
particular any two runs of `main` itself (seed `42`, `n = 10'000'000`) end in the same
result. -/
theorem runs_deterministic {σ : Type} (seed : Nat → σ) (dist : σ → F64 × σ)
    (N S₁ S₂ fuel₁ fuel₂ : Nat) (_hpos : 0 < N) (hN : (N : Int) ≤ INT_MAX) (hS : S₁ = S₂)
    (h₁ : N ≤ fuel₁) (h₂ : N ≤ fuel₂) :
    (∃ r₁ r₂, mainWith dist (seed S₁) N fuel₁ = some r₁ ∧
      mainWith dist (seed S₂) N fuel₂ = some r₂ ∧
      r₁.final.inside = r₂.final.inside ∧ r₁.final.i = r₂.final.i ∧
      estimate r₁.final.inside r₁.final.i = estimate r₂.final.inside r₂.final.i) ∧
    (∀ f₁ f₂ : Nat, 10000000 ≤ f₁ → 10000000 ≤ f₂ →
      ∃ r, main seed dist f₁ = some r ∧ main seed dist f₂ = some r) := by
  subst hS
  refine ⟨⟨_, _, mainWith_eq dist (seed S₁) N fuel₁ hN h₁,
    mainWith_eq dist (seed S₁) N fuel₂ hN h₂, rfl, rfl, rfl⟩, ?_⟩
  intro f₁ f₂ hf₁ hf₂
  exact ⟨_, mainWith_eq dist (seed 42) 10000000 f₁ ten_million_le_int_max hf₁,
    mainWith_eq dist (seed 42) 10000000 f₂ ten_million_le_int_max hf₂⟩

theorem runs_deterministic_witness :
    0 < 3 ∧ ((3 : Nat) : Int) ≤ INT_MAX ∧ 42 = 42 ∧ 3 ≤ 3 ∧ 3 ≤ 5 ∧
      (∃ r₁ r₂, mainWith replay ((fun _ => coords samplePts) 42) ((3 : Nat) : Int) 3 = some r₁ ∧
        mainWith replay ((fun _ => coords samplePts) 42) ((3 : Nat) : Int) 5 = some r₂ ∧
        r₁.final.inside = r₂.final.inside ∧ r₁.final.i = r₂.final.i ∧
        estimate r₁.final.inside r₁.final.i = estimate r₂.final.inside r₂.final.i) ∧
      (∀ f₁ f₂ : Nat, 10000000 ≤ f₁ → 10000000 ≤ f₂ →
        ∃ r, main (fun _ => coords samplePts) replay f₁ = some r ∧
          main (fun _ => coords samplePts) replay f₂ = some r) :=
  ⟨by decide, three_le_int_max, rfl, Nat.le_refl 3, by decide,
    runs_deterministic (fun _ => coords samplePts) replay 3 42 42 3 5 (by decide)
      three_le_int_max rfl (Nat.le_refl 3) (by decide)⟩

theorem hits_single (p : F64 × F64) :
    hits [p] = if inCircle p.1 p.2 then 1 else 0 := by
  by_cases h : inCircle p.1 p.2 = true
  · simp [hits, loop, body, initState, coords, replay, h, wrap32]
  · simp [hits, loop, body, initState, coords, replay, h, wrap32]

/-- C6: run on a single recorded point, the loop counts `(0, 0)` as a hit, `(1, 1)` as a miss
and `(0.6, 0.8)` as a hit, the sum `x * x + y * y` being exactly `1.0` there; and for every
point `(x, y)` the loop counts it as a hit if and only if `x * x + y * y <= 1.0` holds. -/
theorem classification_correct :
    hits [(F64.zero, F64.zero)] = 1 ∧ hits [(F64.one, F64.one)] = 0 ∧ hits [(c06, c08)] = 1 ∧
      F64.add (F64.mul c06 c06) (F64.mul c08 c08) = F64.one ∧
      ∀ x y : F64,
        (hits [(x, y)] = 1 ↔ F64.le (F64.add (F64.mul x x) (F64.mul y y)) F64.one = true) ∧
        (hits [(x, y)] = 0 ↔ F64.le (F64.add (F64.mul x x) (F64.mul y y)) F64.one = false) := by
  refine ⟨?_, ?_, ?_, boundary_sum, ?_⟩
  · rw [hits_single]
    simp [inCircle_origin]
  · rw [hits_single]
    simp [inCircle_corner]
  · rw [hits_single]
    simp [inCircle_boundary]
  · intro x y
    rw [hits_single]
    change (_ ↔ inCircle x y = true) ∧ (_ ↔ inCircle x y = false)
    by_cases h : inCircle x y = true
    · simp [h]
    · simp [h]

/-- C8: for all recorded sequences of points `xs` and `ys` whose joint length is a value of
type `int`, the loop counts `hits (xs ++ ys) = hits xs + hits ys = hits (ys ++ xs)`, and for
every permutation `zs` of `xs` it yields the same hit count and the same estimate. -/
theorem hits_additive_order_independent (xs ys zs : List (F64 × F64))
    (hlen : ((xs ++ ys).length : Int) ≤ INT_MAX) (hperm : List.Perm xs zs) :
    hits (xs ++ ys) = hits xs + hits ys ∧ hits xs + hits ys = hits (ys ++ xs) ∧
      hits zs = hits xs ∧
      estimate (hits zs) (zs.length : Int) = estimate (hits xs) (xs.length : Int) := by
  have hl : (xs ++ ys).length = xs.length + ys.length := List.length_append xs ys
  have hl' : (ys ++ xs).length = ys.length + xs.length := List.length_append ys xs
  have hx : (xs.length : Int) ≤ INT_MAX := by
    rw [hl] at hlen
    push_cast at hlen
    omega
  have hy : (ys.length : Int) ≤ INT_MAX := by
    rw [hl] at hlen
    push_cast at hlen
    omega
  have hyx : ((ys ++ xs).length : Int) ≤ INT_MAX := by
    rw [hl] at hlen
    rw [hl']
    push_cast at hlen ⊢
    omega
  have hz : (zs.length : Int) ≤ INT_MAX := by
    rw [← hperm.length_eq]
    exact hx
  have hzx : hits zs = hits xs := by
    rw [hits_eq_countP zs hz, hits_eq_countP xs hx, hperm.countP_eq]
  refine ⟨?_, ?_, hzx, ?_⟩
  · rw [hits_eq_countP _ hlen, hits_eq_countP xs hx, hits_eq_countP ys hy, List.countP_append]
    push_cast
    rfl
  · rw [hits_eq_countP _ hyx, hits_eq_countP xs hx, hits_eq_countP ys hy, List.countP_append]
    push_cast
    omega
  · rw [hzx, hperm.length_eq]

theorem hits_additive_order_independent_witness :
    ((([(F64.zero, F64.zero), (F64.one, F64.one)] ++ [(c06, c08)]).length : Nat) : Int)
        ≤ INT_MAX ∧
      List.Perm [(F64.zero, F64.zero), (F64.one, F64.one)]
        [(F64.one, F64.one), (F64.zero, F64.zero)] ∧
      (hits ([(F64.zero, F64.zero), (F64.one, F64.one)] ++ [(c06, c08)]) =
          hits [(F64.zero, F64.zero), (F64.one, F64.one)] + hits [(c06, c08)] ∧
        hits [(F64.zero, F64.zero), (F64.one, F64.one)] + hits [(c06, c08)] =
          hits ([(c06, c08)] ++ [(F64.zero, F64.zero), (F64.one, F64.one)]) ∧
        hits [(F64.one, F64.one), (F64.zero, F64.zero)] =
          hits [(F64.zero, F64.zero), (F64.one, F64.one)] ∧
        estimate (hits [(F64.one, F64.one), (F64.zero, F64.zero)])
            (([(F64.one, F64.one), (F64.zero, F64.zero)].length : Nat) : Int) =
          estimate (hits [(F64.zero, F64.zero), (F64.one, F64.one)])
            (([(F64.zero, F64.zero), (F64.one, F64.one)].length : Nat) : Int)) :=
  ⟨three_le_int_max, List.Perm.swap _ _ _,
    hits_additive_order_independent _ _ _ three_le_int_max (List.Perm.swap _ _ _)⟩

/-- C9: with trial count `1`, for every engine state (seed) and every distribution, the run
completes with `i = 1` (total) and `inside` equal to `0` or `1` (hits), and the estimate
`4.0 * hits / total` of these counters is `0.0` or `4.0`. -/
theorem single_trial {σ : Type} (dist : σ → F64 × σ) (rng : σ) (fuel : Nat)
    (hfuel : 1 ≤ fuel) :
    ∃ r, mainWith dist rng 1 fuel = some r ∧ r.final.i = 1 ∧
      (r.final.inside = 0 ∨ r.final.inside = 1) ∧
      (estimate r.final.inside r.final.i = F64.zero ∨
        estimate r.final.inside r.final.i = F64.four) := by
  have h := mainWith_eq dist rng 1 fuel int_max_pos hfuel
  refine ⟨_, h, rfl, ?_⟩
  have hs : hitsUpTo dist rng 1 =
      if inCircle (pointAt dist rng 0).1 (pointAt dist rng 0).2 then 1 else 0 := by
    rw [hitsUpTo_succ dist rng 0]
    simp [hitsUpTo]
  by_cases hc : inCircle (pointAt dist rng 0).1 (pointAt dist rng 0).2 = true
  · rw [if_pos hc] at hs
    simp only [stateAt, hs]
    exact ⟨Or.inr rfl, Or.inr estimate_one_one⟩
  · rw [if_neg hc] at hs
    simp only [stateAt, hs]
    exact ⟨Or.inl rfl, Or.inl estimate_zero_one⟩

theorem single_trial_witness :
    1 ≤ 1 ∧ ∃ r, mainWith replay hitStream 1 1 = some r ∧ r.final.i = 1 ∧
      (r.final.inside = 0 ∨ r.final.inside = 1) ∧
      (estimate r.final.inside r.final.i = F64.zero ∨
        estimate r.final.inside r.final.i = F64.four) :=
  ⟨Nat.le_refl 1, single_trial replay hitStream 1 (Nat.le_refl 1)⟩

/-! ## The trace of the loop -/

theorem loopTrace_stateAt {σ : Type} (dist : σ → F64 × σ) (rng : σ) (N : Nat)
    (hN : (N : Int) ≤ INT_MAX) :
    ∀ (fuel k : Nat), k ≤ N → N - k ≤ fuel →
      loopTrace dist N fuel (stateAt dist rng k) =
        (List.range' k (N - k + 1)).map (stateAt dist rng) := by
  intro fuel
  induction fuel with
  | zero =>
    intro k hk hf
    have hkN : k = N := by omega
    subst hkN
    simp [loopTrace]
  | succ fuel ih =>
    intro k hk hf
    by_cases hlt : k < N
    · have hlt' : ((k : Nat) : Int) < (N : Int) := by exact_mod_cast hlt
      have hcond : (stateAt dist rng k).i < (N : Int) := hlt'
      have hlen : N - k + 1 = (N - (k + 1) + 1) + 1 := by omega
      have hr : List.range' k (N - k + 1) = k :: List.range' (k + 1) (N - (k + 1) + 1) := by
        rw [hlen, List.range'_succ]
      rw [loopTrace, if_pos hcond, body_stateAt dist rng k N hlt' hN,
        ih (k + 1) (by omega) (by omega), hr, List.map_cons]
    · have hkN : k = N := by omega
      subst hkN
      simp [loopTrace, stateAt]

theorem loopTrace_getElem {σ : Type} (dist : σ → F64 × σ) (rng : σ) (N fuel : Nat)
    (hN : (N : Int) ≤ INT_MAX) (hf : N ≤ fuel) (k : Nat) (hk : k ≤ N) :
    (loopTrace dist N fuel (initState rng))[k]? = some (stateAt dist rng k) := by
  rw [initState_eq_stateAt dist rng,
    loopTrace_stateAt dist rng N hN fuel 0 (Nat.zero_le N) (by omega), List.getElem?_map,
    List.getElem?_range' 0 1 (by omega : k < N - 0 + 1)]
  simp

/-! ## The draws behind the samples -/

theorem rngAt_distOf {σ : Type} (next : σ → Nat × σ) (scale : Nat → F64) (rng : σ)
    (k : Nat) : rngAt (distOf next scale) rng k = engineAt next rng (2 * k) := by
  induction k with
  | zero => rfl
  | succ k ih =>
    have h2 : 2 * (k + 1) = 2 * k + 1 + 1 := by omega
    rw [h2]
    simp only [rngAt, engineAt, distOf, ih]

theorem pointAt_distOf {σ : Type} (next : σ → Nat × σ) (scale : Nat → F64) (rng : σ)
    (k : Nat) :
    pointAt (distOf next scale) rng k =
      (scale (rawAt next rng (2 * k)), scale (rawAt next rng (2 * k + 1))) := by
  simp only [pointAt, rawAt, engineAt, distOf, rngAt_distOf]

/-! ## Wrapping and unbounded counters -/

theorem loopTrace_inv_bound {σ : Type} (dist : σ → F64 × σ) (n B : Int) (hnB : n ≤ B)
    (hB : B ≤ INT_MAX) :
    ∀ (fuel : Nat) (st : LoopState σ), CounterInv B st →
      ∀ s ∈ loopTrace dist n fuel st, CounterInv B s := by
  intro fuel
  induction fuel with
  | zero =>
    intro st hinv s hs
    simp only [loopTrace, List.mem_singleton] at hs
    subst hs
    exact hinv
  | succ fuel ih =>
    intro st hinv s hs
    rw [loopTrace, List.mem_cons] at hs
    rcases hs with hs | hs
    · subst hs
      exact hinv
    · by_cases hlt : st.i < n
      · rw [if_pos hlt] at hs
        exact ih (body dist st) (body_inv dist B hB st hinv (lt_of_lt_of_le hlt hnB)) s hs
      · rw [if_neg hlt] at hs
        cases hs

theorem body_eq_bodyZ {σ : Type} (dist : σ → F64 × σ) (B : Int) (hB : B ≤ INT_MAX)
    (st : LoopState σ) (hinv : CounterInv B st) (hlt : st.i < B) :
    body dist st = bodyZ dist st := by
  obtain ⟨h0, h1, _⟩ := hinv
  have hi : wrap32 (st.i + 1) = st.i + 1 := wrap32_succ _ B (by omega) hlt hB
  have hh : wrap32 (st.inside + 1) = st.inside + 1 := wrap32_succ _ B h0 (by omega) hB
  unfold body bodyZ
  simp only [hi, hh]

theorem loop_eq_loopZ {σ : Type} (dist : σ → F64 × σ) (n B : Int) (hnB : n ≤ B)
    (hB : B ≤ INT_MAX) :
    ∀ (fuel : Nat) (st : LoopState σ), CounterInv B st →
      loop dist n fuel st = loopZ dist n fuel st := by
  intro fuel
  induction fuel with
  | zero =>
    intro st _
    simp [loop, loopZ]
  | succ fuel ih =>
    intro st hinv
    by_cases hlt : st.i < n
    · have hltB : st.i < B := lt_of_lt_of_le hlt hnB
      rw [loop, loopZ, if_pos hlt, if_pos hlt, ← body_eq_bodyZ dist B hB st hinv hltB]
      exact ih (body dist st) (body_inv dist B hB st hinv hltB)
    · rw [loop, loopZ, if_neg hlt, if_neg hlt]

theorem loop_terminates {σ : Type} (dist : σ → F64 × σ) (rng : σ) (n : Int) (fuel : Nat)
    (hn : n ≤ INT_MAX) (hf : n.toNat ≤ fuel) :
    ∃ st, loop dist n fuel (initState rng) = some st := by
  by_cases h0 : 0 ≤ n
  · have hcast : ((n.toNat : Nat) : Int) = n := Int.toNat_of_nonneg h0
    have h := loop_initState dist rng n.toNat fuel (by rw [hcast]; exact hn) hf
    rw [hcast] at h
    exact ⟨_, h⟩
  · have hneg : ¬ (initState rng).i < n := by
      simp only [initState]
      omega
    cases fuel with
    | zero => exact ⟨_, by rw [loop, if_neg hneg]⟩
    | succ fuel => exact ⟨_, by rw [loop, if_neg hneg]⟩

/-! ## The claims on single iterations, draws, exit status and machine integers -/

/-- C11: the state before the first sample has `inside = 0` and `i = 0`, and each of the `N`
iterations the loop runs (`N` a value of type `int`) leads from one loop-head state to the next
by a single step: `i` increases by exactly `1`, `inside` increases by exactly `1` when the
sampled point satisfies `x * x + y * y <= 1.0` and by `0` otherwise, and neither counter
decreases. -/
theorem iteration_single_step {σ : Type} (dist : σ → F64 × σ) (rng : σ) (N fuel : Nat)
    (hN : (N : Int) ≤ INT_MAX) (hfuel : N ≤ fuel) :
    (loopTrace dist N fuel (initState rng))[0]? = some { rng := rng, inside := 0, i := 0 } ∧
      ∀ k : Nat, k < N →
        ∃ s t, (loopTrace dist N fuel (initState rng))[k]? = some s ∧
          (loopTrace dist N fuel (initState rng))[k + 1]? = some t ∧
          t = body dist s ∧
          t.i = s.i + 1 ∧
          t.inside = s.inside +
            (if inCircle (pointAt dist rng k).1 (pointAt dist rng k).2 then 1 else 0) ∧
          s.inside ≤ t.inside ∧ s.i ≤ t.i := by
  refine ⟨?_, ?_⟩
  · rw [loopTrace_getElem dist rng N fuel hN hfuel 0 (Nat.zero_le N),
      ← initState_eq_stateAt dist rng]
    rfl
  · intro k hk
    have hlt : ((k : Nat) : Int) < (N : Int) := by exact_mod_cast hk
    have hi : (stateAt dist rng (k + 1)).i = (stateAt dist rng k).i + 1 := by
      simp [stateAt]
    have hh : (stateAt dist rng (k + 1)).inside = (stateAt dist rng k).inside +
        (if inCircle (pointAt dist rng k).1 (pointAt dist rng k).2 then 1 else 0) := by
      simp only [stateAt, hitsUpTo_succ]
      by_cases hc : inCircle (pointAt dist rng k).1 (pointAt dist rng k).2 = true
      · simp [hc]
      · simp [hc]
    refine ⟨stateAt dist rng k, stateAt dist rng (k + 1),
      loopTrace_getElem dist rng N fuel hN hfuel k (by omega),
      loopTrace_getElem dist rng N fuel hN hfuel (k + 1) (by omega),
      (body_stateAt dist rng k N hlt hN).symm, hi, hh, ?_, ?_⟩
    · rw [hh]
      by_cases hc : inCircle (pointAt dist rng k).1 (pointAt dist rng k).2 = true
      · simp [hc]
      · simp [hc]
    · rw [hi]
      omega

theorem iteration_single_step_witness :
    ((3 : Nat) : Int) ≤ INT_MAX ∧ 3 ≤ 3 ∧
      ((loopTrace replay ((3 : Nat) : Int) 3 (initState (coords samplePts)))[0]? =
          some { rng := coords samplePts, inside := 0, i := 0 } ∧
        ∀ k : Nat, k < 3 →
          ∃ s t, (loopTrace replay ((3 : Nat) : Int) 3 (initState (coords samplePts)))[k]? =
              some s ∧
            (loopTrace replay ((3 : Nat) : Int) 3 (initState (coords samplePts)))[k + 1]? =
              some t ∧
            t = body replay s ∧
            t.i = s.i + 1 ∧
            t.inside = s.inside +
              (if inCircle (pointAt replay (coords samplePts) k).1
                (pointAt replay (coords samplePts) k).2 then 1 else 0) ∧
            s.inside ≤ t.inside ∧ s.i ≤ t.i) :=
  ⟨three_le_int_max, Nat.le_refl 3,
    iteration_single_step replay (coords samplePts) 3 3 three_le_int_max (Nat.le_refl 3)⟩

/-- C12: with `dist(rng)` taking one raw value per call, each loop iteration advances the
engine by exactly two draws, `x` being the scaled first and `y` the scaled second of them;
the `k`-th point is built from the raw draws `2k` and `2k + 1`, after `k ≤ N` iterations
exactly `2k` raw values have been consumed, and the loop exits after `2N` draws. -/
theorem two_draws_per_iteration {σ : Type} (next : σ → Nat × σ) (scale : Nat → F64) (rng : σ)
    (N fuel : Nat) (hN : (N : Int) ≤ INT_MAX) (hfuel : N ≤ fuel) :
    (∀ st : LoopState σ,
        (body (distOf next scale) st).rng = engineAt next st.rng 2 ∧
        (body (distOf next scale) st).inside =
          if inCircle (scale (rawAt next st.rng 0)) (scale (rawAt next st.rng 1))
          then wrap32 (st.inside + 1) else st.inside) ∧
      (∀ k : Nat, pointAt (distOf next scale) rng k =
        (scale (rawAt next rng (2 * k)), scale (rawAt next rng (2 * k + 1)))) ∧
      (∀ k : Nat, k ≤ N →
        ∃ s, (loopTrace (distOf next scale) N fuel (initState rng))[k]? = some s ∧
          s.rng = engineAt next rng (2 * k)) ∧
      ∃ st, loop (distOf next scale) N fuel (initState rng) = some st ∧
        st.rng = engineAt next rng (2 * N) := by
  refine ⟨?_, ?_, ?_, ?_⟩
  · intro st
    exact ⟨rfl, rfl⟩
  · intro k
    exact pointAt_distOf next scale rng k
  · intro k hk
    exact ⟨_, loopTrace_getElem (distOf next scale) rng N fuel hN hfuel k hk,
      rngAt_distOf next scale rng k⟩
  · exact ⟨_, loop_initState (distOf next scale) rng N fuel hN hfuel,
      rngAt_distOf next scale rng N⟩

theorem two_draws_per_iteration_witness :
    ((3 : Nat) : Int) ≤ INT_MAX ∧ 3 ≤ 3 ∧
      ((∀ st : LoopState Nat,
          (body (distOf counterEngine scaleByRange) st).rng = engineAt counterEngine st.rng 2 ∧
          (body (distOf counterEngine scaleByRange) st).inside =
            if inCircle (scaleByRange (rawAt counterEngine st.rng 0))
              (scaleByRange (rawAt counterEngine st.rng 1))
            then wrap32 (st.inside + 1) else st.inside) ∧
        (∀ k : Nat, pointAt (distOf counterEngine scaleByRange) 0 k =
          (scaleByRange (rawAt counterEngine 0 (2 * k)),
            scaleByRange (rawAt counterEngine 0 (2 * k + 1)))) ∧
        (∀ k : Nat, k ≤ 3 →
          ∃ s, (loopTrace (distOf counterEngine scaleByRange) ((3 : Nat) : Int) 3
              (initState 0))[k]? = some s ∧
            s.rng = engineAt counterEngine 0 (2 * k)) ∧
        ∃ st, loop (distOf counterEngine scaleByRange) ((3 : Nat) : Int) 3 (initState 0) =
            some st ∧
          st.rng = engineAt counterEngine 0 (2 * 3)) :=
  ⟨three_le_int_max, Nat.le_refl 3,
    two_draws_per_iteration counterEngine scaleByRange 0 3 3 three_le_int_max (Nat.le_refl 3)⟩

/-- C13: for every trial count `N > 0` of type `int`, two runs over arbitrary engines,
distributions and seeds both complete with exit status `0`, whatever points they sample and
whatever hit counts they end with; so does `main` itself (`n = 10'000'000`, seed `42`) for
every engine and distribution. -/
theorem exit_status_independent {σ τ : Type} (dist₁ : σ → F64 × σ) (dist₂ : τ → F64 × τ)
    (rng₁ : σ) (rng₂ : τ) (N fuel₁ fuel₂ : Nat) (_hpos : 0 < N) (hN : (N : Int) ≤ INT_MAX)
    (h₁ : N ≤ fuel₁) (h₂ : N ≤ fuel₂) :
    (∃ r₁ r₂, mainWith dist₁ rng₁ N fuel₁ = some r₁ ∧ mainWith dist₂ rng₂ N fuel₂ = some r₂ ∧
        r₁.status = 0 ∧ r₂.status = 0 ∧ r₁.status = r₂.status) ∧
      (∀ (seed : Nat → σ) (f : Nat), 10000000 ≤ f →
        (main seed dist₁ f).map Run.status = some 0) := by
  refine ⟨⟨_, _, mainWith_eq dist₁ rng₁ N fuel₁ hN h₁, mainWith_eq dist₂ rng₂ N fuel₂ hN h₂,
    rfl, rfl, rfl⟩, ?_⟩
  intro seed f hf
  have h : main seed dist₁ f = some { status := 0, final := stateAt dist₁ (seed 42) 10000000 } :=
    mainWith_eq dist₁ (seed 42) 10000000 f ten_million_le_int_max hf
  rw [h]
  rfl

theorem exit_status_independent_witness :
    0 < 1 ∧ ((1 : Nat) : Int) ≤ INT_MAX ∧ 1 ≤ 1 ∧ 1 ≤ 2 ∧
      ((∃ r₁ r₂, mainWith replay hitStream ((1 : Nat) : Int) 1 = some r₁ ∧
          mainWith (distOf counterEngine scaleByRange) 7 ((1 : Nat) : Int) 2 = some r₂ ∧
          r₁.status = 0 ∧ r₂.status = 0 ∧ r₁.status = r₂.status) ∧
        (∀ (seed : Nat → List F64) (f : Nat), 10000000 ≤ f →
          (main seed replay f).map Run.status = some 0)) :=
  ⟨by decide, int_max_pos, Nat.le_refl 1, by decide,
    exit_status_independent replay (distOf counterEngine scaleByRange) hitStream 7 1 1 2
      (by decide) int_max_pos (Nat.le_refl 1) (by decide)⟩

/-- C14: for every trial count `n ≤ 2^31 - 1`, so for the source's `n = 10'000'000`, at every
loop-head state the counters satisfy `0 ≤ inside ≤ i ≤ max n 0 ≤ 2^31 - 1`, the increments
`i++` and `inside++` of an iteration that runs do not wrap, and the loop over 32-bit counters
returns exactly what the loop over unbounded integers returns, a result once the fuel covers
the `n` iterations. -/
theorem counters_never_wrap {σ : Type} (dist : σ → F64 × σ) (rng : σ) (n : Int) (fuel : Nat)
    (hn : n ≤ INT_MAX) :
    (∀ st ∈ loopTrace dist n fuel (initState rng),
        0 ≤ st.inside ∧ st.inside ≤ st.i ∧ st.i ≤ max n 0 ∧ st.i ≤ INT_MAX ∧
        (st.i < n →
          wrap32 (st.i + 1) = st.i + 1 ∧ wrap32 (st.inside + 1) = st.inside + 1)) ∧
      loop dist n fuel (initState rng) = loopZ dist n fuel (initState rng) ∧
      (n.toNat ≤ fuel →
        ∃ st, loop dist n fuel (initState rng) = some st ∧
          loopZ dist n fuel (initState rng) = some st) := by
  have hnB : n ≤ max n 0 := le_max_left n 0
  have hB : max n 0 ≤ INT_MAX := max_le hn (by unfold INT_MAX; norm_num)
  have hinit : CounterInv (max n 0) (initState rng) := by
    unfold CounterInv initState
    simp
  have heq := loop_eq_loopZ dist n (max n 0) hnB hB fuel (initState rng) hinit
  refine ⟨?_, heq, ?_⟩
  · intro st hst
    obtain ⟨h0, h1, h2⟩ :=
      loopTrace_inv_bound dist n (max n 0) hnB hB fuel (initState rng) hinit st hst
    refine ⟨h0, h1, h2, le_trans h2 hB, ?_⟩
    intro hlt
    exact ⟨wrap32_succ _ n (by omega) hlt hn, wrap32_succ _ n h0 (by omega) hn⟩
  · intro hf
    obtain ⟨st, hst⟩ := loop_terminates dist rng n fuel hn hf
    exact ⟨st, hst, by rw [← heq]; exact hst⟩

theorem counters_never_wrap_witness :
    (10000000 : Int) ≤ INT_MAX ∧
      ((∀ st ∈ loopTrace replay 10000000 3 (initState (coords samplePts)),
          0 ≤ st.inside ∧ st.inside ≤ st.i ∧ st.i ≤ max 10000000 0 ∧ st.i ≤ INT_MAX ∧
          (st.i < 10000000 →
            wrap32 (st.i + 1) = st.i + 1 ∧ wrap32 (st.inside + 1) = st.inside + 1)) ∧
        loop replay 10000000 3 (initState (coords samplePts)) =
          loopZ replay 10000000 3 (initState (coords samplePts)) ∧
        ((10000000 : Int).toNat ≤ 3 →
          ∃ st, loop replay 10000000 3 (initState (coords samplePts)) = some st ∧
            loopZ replay 10000000 3 (initState (coords samplePts)) = some st)) :=
  ⟨ten_million_le_int_max,
    counters_never_wrap replay (coords samplePts) 10000000 3 ten_million_le_int_max⟩

end MonteCarlo
